import Mathlib

/-!
Verification development for the documentation exporter (`export-docs.py`).

The Python source is shallowly embedded below.  All text processing is
modelled on `List Char` (Lean `String` is a structure wrapping such a
list), with the source's functions given their original names.  Regular
expression substitutions (`re.sub`) are modelled by a generic
leftmost-match scanner `reSub` instantiated with one deterministic
matcher per pattern; each matcher is derived from the concrete pattern's
(backtracking) semantics, which is deterministic for every pattern the
source uses.  Python's `str.replace` is modelled by `pyReplace`,
`html.escape` by `html_escape`.  External collaborators (the YAML
parser, the Markdown renderer) are passed in as oracle parameters where
the source calls them.
-/

/-- ASCII model of Python's whitespace class `\s` (the source's inputs
are ASCII-oriented docs; only the ASCII members matter here). -/
def isPySpace (c : Char) : Bool :=
  c == ' ' || c == '\t' || c == '\n' || c == '\r' || c == '\x0b' || c == '\x0c'

/-- ASCII model of the regex word class `\w`: `[A-Za-z0-9_]`. -/
def isWordChar (c : Char) : Bool :=
  c.isAlpha || c.isDigit || c == '_'

/-- Fuel-driven worker for `pyReplace`: replaces non-overlapping
leftmost occurrences of `pat` (assumed nonempty) by `rep`.  The fuel is
always instantiated with the length of the text, which suffices because
a successful match consumes at least one character. -/
def replaceAux (pat rep : List Char) : Nat → List Char → List Char
  | _, [] => []
  | 0, s => s
  | n + 1, c :: cs =>
    if pat.isPrefixOf (c :: cs) then
      rep ++ replaceAux pat rep n ((c :: cs).drop pat.length)
    else
      c :: replaceAux pat rep n cs

/-- Model of Python `s.replace(pat, rep)` (all non-overlapping leftmost
occurrences).  The source never calls `replace` with an empty pattern;
for totality that case returns `s` unchanged. -/
def pyReplace (s pat rep : String) : String :=
  if pat.data.isEmpty then s
  else String.mk (replaceAux pat.data rep.data s.data.length s.data)

/-- Model of Python `html.escape(s)` with the default `quote=True`:
the five replacements in the order the library applies them. -/
def html_escape (s : String) : String :=
  let s1 := pyReplace s "&" "&amp;"
  let s2 := pyReplace s1 "<" "&lt;"
  let s3 := pyReplace s2 ">" "&gt;"
  let s4 := pyReplace s3 "\"" "&quot;"
  pyReplace s4 "'" "&#x27;"

/-- Fuel-driven worker for `reSub`.  `f` is a matcher: at the current
position it either yields `some (out, rest)` — the replacement text and
the text after the match — or `none`, in which case one character is
copied and scanning resumes at the next position (exactly `re.sub`'s
leftmost-match behaviour). -/
def subAux (f : List Char → Option (List Char × List Char)) :
    Nat → List Char → List Char
  | _, [] => []
  | 0, s => s
  | n + 1, c :: cs =>
    match f (c :: cs) with
    | some (o, r) => o ++ subAux f n r
    | none => c :: subAux f n cs

/-- Model of `re.sub(pattern, repl, s)` for a matcher `f` modelling a
concrete pattern.  Every matcher below consumes at least one character
on success, so fuel `s.length` suffices. -/
def reSub (f : List Char → Option (List Char × List Char)) (s : List Char) :
    List Char :=
  subAux f s.length s

/-- Scan up to the first occurrence of `q`; the splitter consumes `q`.
`none` when `q` does not occur. -/
def scanToChar (q : Char) : List Char → Option (List Char × List Char)
  | [] => none
  | c :: cs =>
    if c = q then some ([], cs)
    else
      match scanToChar q cs with
      | some (p, r) => some (c :: p, r)
      | none => none

/-- Scan up to the first `'"'` failing on `'\n'` or end of text: the
lazy group `(.*?)` of the `srcLight`/`srcDark` pattern cannot cross a
newline (no DOTALL flag on that pattern). -/
def scanToQuoteNoNl : List Char → Option (List Char × List Char)
  | [] => none
  | c :: cs =>
    if c = '"' then some ([], cs)
    else if c = '\n' then none
    else
      match scanToQuoteNoNl cs with
      | some (p, r) => some (c :: p, r)
      | none => none

/-- Matcher for the pattern `src(?:Light|Dark)="(.*?)"` of
`process_image_paths`, together with its replacement
`src="{base_path}{relative_path}{path_args}"` (source lines 14-27). -/
def imgMatch (base args : List Char) (s : List Char) :
    Option (List Char × List Char) :=
  if "srcLight=\"".data.isPrefixOf s then
    match scanToQuoteNoNl (s.drop 10) with
    | some (p, r) => some ("src=\"".data ++ base ++ p ++ args ++ "\"".data, r)
    | none => none
  else if "srcDark=\"".data.isPrefixOf s then
    match scanToQuoteNoNl (s.drop 9) with
    | some (p, r) => some ("src=\"".data ++ base ++ p ++ args ++ "\"".data, r)
    | none => none
  else none

/-- `process_image_paths` (source lines 14-27), with the module globals
`base_path` and `path_args` passed explicitly. -/
def process_image_paths (base_path path_args md_content : String) : String :=
  String.mk (reSub (imgMatch base_path.data path_args.data) md_content.data)

/-- The header line built by `preprocess_code_blocks` (source line 40):
with a language the filename is followed by the language in
parentheses, otherwise the filename alone. -/
def fenceHeader (language filename : List Char) : List Char :=
  if language.isEmpty then
    "<div class=\"code-header\"><i>".data ++ filename ++ "</i></div>".data
  else
    "<div class=\"code-header\"><i>".data ++ filename ++ " (".data ++
      language ++ ")</i></div>".data

/-- Split at the first occurrence of `pat` (`pat` consumed); `none` when
`pat` does not occur.  Models the lazy group `(.*?)` running up to a
literal. -/
def splitFirst (pat : List Char) : List Char → Option (List Char × List Char)
  | [] => none
  | c :: cs =>
    if pat.isPrefixOf (c :: cs) then some ([], (c :: cs).drop pat.length)
    else
      match splitFirst pat cs with
      | some (p, r) => some (c :: p, r)
      | none => none

/-- Drop everything up to and including the last `'\n'` of the list;
`none` when no `'\n'` occurs.  This realises the backtracking of the
greedy `\s*` in the code-fence pattern: the engine settles on the
latest position inside the whitespace run at which the mandatory `\n`
of the pattern can still match. -/
def lastSplitAfterNl : List Char → Option (List Char)
  | [] => none
  | c :: cs =>
    match lastSplitAfterNl cs with
    | some t => some t
    | none => if c = '\n' then some cs else none

/-- Matcher for the DOTALL pattern
`` ```(\w+)?\s+filename="([^"]+)"\s*(switcher)?\n(.*?)``` `` of
`preprocess_code_blocks` together with its replacement
`{header}\n```{language}\n{code_block}\n``` ` (source lines 30-45).
The alternation-free pattern is deterministic: `\w`, `\s` and the
literals that follow each repetition are disjoint, so the greedy
repetitions always take their maximal run, except for the trailing
`\s*(switcher)?\n`, whose backtracking is realised by the
`switcher`-lookahead and `lastSplitAfterNl`. -/
def fenceMatch (s : List Char) : Option (List Char × List Char) :=
  if "```".data.isPrefixOf s then
    let s1 := s.drop 3
    let language := s1.takeWhile isWordChar
    let s2 := s1.dropWhile isWordChar
    let ws := s2.takeWhile isPySpace
    let s3 := s2.dropWhile isPySpace
    if ws.isEmpty then none
    else if "filename=\"".data.isPrefixOf s3 then
      match scanToChar '"' (s3.drop 10) with
      | none => none
      | some (filename, s5) =>
        if filename.isEmpty then none
        else
          let w := s5.takeWhile isPySpace
          let t := s5.dropWhile isPySpace
          let cstart? : Option (List Char) :=
            if "switcher\n".data.isPrefixOf t then some (t.drop 9)
            else
              match lastSplitAfterNl w with
              | some wtail => some (wtail ++ t)
              | none => none
          match cstart? with
          | none => none
          | some cstart =>
            match splitFirst "```".data cstart with
            | none => none
            | some (code_block, rest) =>
              some (fenceHeader language filename ++ "\n```".data ++
                language ++ "\n".data ++ code_block ++ "\n```".data, rest)
    else none
  else none

/-- `preprocess_code_blocks` (source lines 30-45). -/
def preprocess_code_blocks (md_content : String) : String :=
  String.mk (reSub fenceMatch md_content.data)

/-- Matcher for the pattern `<(/?\w+)>` of `preprocess_mdx_content`,
replacement `html.escape(match)` (source lines 55-58). -/
def mdxMatch (s : List Char) : Option (List Char × List Char) :=
  match s with
  | '<' :: rest =>
    let slash := match rest with | '/' :: _ => ['/'] | _ => ([] : List Char)
    let rest1 := if slash.isEmpty then rest else rest.drop 1
    let w := rest1.takeWhile isWordChar
    let rest2 := rest1.dropWhile isWordChar
    if w.isEmpty then none
    else
      match rest2 with
      | '>' :: r2 =>
        some ((html_escape (String.mk ('<' :: (slash ++ w ++ ['>'])))).data, r2)
      | _ => none
  | _ => none

/-- `preprocess_mdx_content` (source lines 55-58).  Note: this function
is defined in the source but never invoked by `process_files`. -/
def preprocess_mdx_content (md_content : String) : String :=
  String.mk (reSub mdxMatch md_content.data)

/-- Model of Python `str.split('\n')`: always at least one (possibly
empty) piece. -/
def splitNl : List Char → List (List Char)
  | [] => [[]]
  | c :: cs =>
    match splitNl cs with
    | [] => [[]]
    | l :: ls => if c = '\n' then [] :: l :: ls else (c :: l) :: ls

/-- Model of Python `str.strip()` (ASCII whitespace). -/
def pyStrip (s : List Char) : List Char :=
  ((s.dropWhile isPySpace).reverse.dropWhile isPySpace).reverse

/-- Model of `lines.index('---', 1)` followed by the slicing of
`parse_frontmatter`: split the post-first-line lines at the first line
equal to `"---"`.  `none` models the `ValueError` raised by
`list.index` when no such line exists. -/
def splitAtDashes : List String → Option (List String × List String)
  | [] => none
  | l :: ls =>
    if l = "---" then some ([], ls)
    else
      match splitAtDashes ls with
      | some (a, b) => some (l :: a, b)
      | none => none

/-- `parse_frontmatter` (source lines 61-68).  The source leaves the
`ValueError` of `lines.index('---', 1)` uncaught; that outcome is
modelled as `Except.error ()`. -/
def parse_frontmatter (md_content : String) :
    Except Unit (Option String × String) :=
  let lines := (splitNl md_content.data).map String.mk
  match lines with
  | [] => .ok (none, md_content)
  | l0 :: rest =>
    if String.mk (pyStrip l0.data) = "---" then
      match splitAtDashes rest with
      | some (fmLines, bodyLines) =>
        .ok (some (String.intercalate "\n" fmLines),
          String.intercalate "\n" bodyLines)
      | none => .error ()
    else .ok (none, md_content)

/-- Fuel-driven worker for `preprocess_frontmatter`: the scan of
`re.sub(r'<[^>]+>', replace_tag, frontmatter)` carrying the running
count `k = len(html_tags)` used to name the next placeholder. -/
def pfAux : Nat → Nat → List Char → List Char × List (String × String)
  | _, _, [] => ([], [])
  | 0, _, s => (s, [])
  | n + 1, k, c :: cs =>
    if c = '<' then
      match scanToChar '>' cs with
      | some (inner, rest) =>
        if inner.isEmpty then
          let (o, m) := pfAux n k cs
          (c :: o, m)
        else
          let ph := "HTML_TAG_" ++ toString k
          let tag := String.mk ('<' :: (inner ++ ['>']))
          let (o, m) := pfAux n (k + 1) rest
          (ph.data ++ o, (ph, tag) :: m)
      | none =>
        let (o, m) := pfAux n k cs
        (c :: o, m)
    else
      let (o, m) := pfAux n k cs
      (c :: o, m)

/-- `preprocess_frontmatter` (source lines 133-143): replaces each
match of `<[^>]+>` by the placeholder `HTML_TAG_{len(html_tags)}` and
records the mapping in insertion order (a Python dict with those
insertion-ordered keys is modelled as an association list). -/
def preprocess_frontmatter (frontmatter : String) :
    String × List (String × String) :=
  let (o, m) := pfAux frontmatter.data.length 0 frontmatter.data
  (String.mk o, m)

/-- Values produced by the YAML parser: the scalar/sequence/mapping
universe that `yaml.safe_load` returns for the frontmatter blocks the
source processes. -/
inductive YVal where
  | null
  | bool (b : Bool)
  | int (n : Int)
  | str (s : String)
  | list (xs : List YVal)
  | map (kvs : List (String × YVal))

/-- `safe_load_frontmatter` (source lines 48-52): wraps
`yaml.safe_load`, turning a `YAMLError` into `None`.  The YAML library
is external to the repository, so its outcome (a parsed value, or
`none` covering both YAML `null` rejection and the caught parse error)
is an oracle parameter `parseYaml`. -/
def safe_load_frontmatter (parseYaml : String → Option YVal)
    (frontmatter_content : String) : Option YVal :=
  parseYaml frontmatter_content

/-- The per-value restoration of `restore_html_tags`: replace each
placeholder by its recorded tag, in insertion order, then
`html.escape` the result (source lines 150-152). -/
def restoreString (html_tags : List (String × String)) (value : String) :
    String :=
  html_escape (html_tags.foldl (fun acc pt => pyReplace acc pt.1 pt.2) value)

/-- `restore_html_tags` (source lines 146-154): on a mapping, rewrite
exactly the top-level string values via `restoreString`; anything else
is returned unchanged. -/
def restore_html_tags (parsed_data : YVal)
    (html_tags : List (String × String)) : YVal :=
  match parsed_data with
  | .map kvs =>
    .map (kvs.map (fun kv =>
      match kv.2 with
      | .str s => (kv.1, YVal.str (restoreString html_tags s))
      | v => (kv.1, v)))
  | v => v

/-- Python code-point comparison of character lists (the order Python
uses to compare `str` values). -/
def listLtb : List Char → List Char → Bool
  | [], [] => false
  | [], _ :: _ => true
  | _ :: _, [] => false
  | a :: as', b :: bs =>
    if a < b then true else if b < a then false else listLtb as' bs

/-- Python `s < t` on strings. -/
def pyStrLt (s t : String) : Prop := listLtb s.data t.data = true

instance (s t : String) : Decidable (pyStrLt s t) := by
  unfold pyStrLt; infer_instance

/-- Python `s <= t` on strings, as a Bool (used to model the stable
ascending `list.sort`). -/
def pyStrLeb (s t : String) : Bool := ! listLtb t.data s.data

/-- The tiebreak renaming of `get_files_sorted` (source line 126). -/
def modified_basename (file : String) : String :=
  if file = "index.mdx" ∨ file = "index.md" then "!!!" ++ file else file

/-- The sort key of `get_files_sorted` (source line 127):
`os.path.join(root, modified_basename)`, modelled for a POSIX root with
no trailing separator. -/
def sort_key (root file : String) : String :=
  root ++ "/" ++ modified_basename file

/-- `get_files_sorted` (source lines 121-130) over the walked
`(root, file)` pairs (the `os.walk` enumeration is external input).
Python's stable ascending sort by key is modelled by `insertionSort`
on the non-strict comparison `pyStrLeb`. -/
def get_files_sorted (entries : List (String × String)) : List String :=
  let all_files := entries.map (fun rf =>
    (rf.1 ++ "/" ++ rf.2, sort_key rf.1 rf.2))
  (List.insertionSort
    (fun p q : String × String => pyStrLeb p.2 q.2 = true) all_files).map
    (fun x => x.1)

/-- The `while len(numbering) <= depth: numbering.append(0)` loop
(source lines 195-196). -/
def padNumbering (numbering : List Nat) (depth : Nat) : List Nat :=
  numbering ++ List.replicate (depth + 1 - numbering.length) 0

/-- One visit of the TOC counter (source lines 195-201): pad with
zeros, increment slot `depth`, reset every deeper slot to `0`. -/
def tocStep (numbering : List Nat) (depth : Nat) : List Nat :=
  let p := padNumbering numbering depth
  let q := p.set depth (p.getD depth 0 + 1)
  q.take (depth + 1) ++ List.replicate (q.length - (depth + 1)) 0

/-- The slot strings joined in the numbering (source line 203):
`numbering[:depth + 1]` rendered in decimal. -/
def tocComponents (numbering : List Nat) (depth : Nat) : List String :=
  (numbering.take (depth + 1)).map (fun n => toString n)

/-- The rendered numbering `'.'.join(map(str, numbering[:depth + 1]))`
(source line 203). -/
def tocNumberingStr (numbering : List Nat) (depth : Nat) : String :=
  String.intercalate "." (tocComponents numbering depth)

/-- The numbering state and rendered numbering strings produced by a
walk visiting the given depths, starting from the initial counter
`[0]` (source line 171). -/
def tocVisit (depths : List Nat) : List Nat × List String :=
  depths.foldl (fun st d =>
    let n := tocStep st.1 d
    (n, st.2 ++ [tocNumberingStr n d])) ([0], [])

/-- Python `dict.get(k)` on a parsed mapping (`none` when the key is
absent); the source only reaches `.get` on values that are mappings. -/
def yget (v : YVal) (k : String) : Option YVal :=
  match v with
  | .map kvs => kvs.lookup k
  | _ => none

/-- Python truthiness of a parsed YAML value (used by
`if data.get('related', {}):`, source line 213). -/
def yTruthy : YVal → Bool
  | .null => false
  | .bool b => b
  | .int n => !(n == 0)
  | .str s => !s.data.isEmpty
  | .list xs => !xs.isEmpty
  | .map kvs => !kvs.isEmpty

mutual

/-- Model of Python `repr` on parsed YAML values (scalar cases exact;
string quoting simplified to plain single quotes, which is exact for
the strings without quotes/escapes that occur here). -/
def pyRepr : YVal → String
  | .null => "None"
  | .bool b => if b then "True" else "False"
  | .int n => toString n
  | .str s => "'" ++ s ++ "'"
  | .list xs => "[" ++ String.intercalate ", " (pyReprList xs) ++ "]"
  | .map kvs => "\x7b" ++ String.intercalate ", " (pyReprMapList kvs) ++ "\x7d"

def pyReprList : List YVal → List String
  | [] => []
  | v :: vs => pyRepr v :: pyReprList vs

def pyReprMapList : List (String × YVal) → List String
  | [] => []
  | kv :: kvs => ("'" ++ kv.1 ++ "': " ++ pyRepr kv.2) :: pyReprMapList kvs

end

/-- Model of Python `str()` on a parsed YAML value, as interpolated by
the f-strings of `process_files`. -/
def pyStr : YVal → String
  | .str s => s
  | v => pyRepr v

/-- Model of Python iteration (`for link in …`) over a parsed YAML
value: lists yield elements, strings yield one-character strings, dicts
yield their keys; iterating a scalar raises `TypeError`
(`Except.error`). -/
def yIterate : YVal → Except Unit (List YVal)
  | .list xs => .ok xs
  | .str s => .ok (s.data.map (fun c => YVal.str (String.mk [c])))
  | .map kvs => .ok (kvs.map (fun kv => YVal.str kv.1))
  | _ => .error ()

/-- Model of `os.path.relpath(path, base)` for a POSIX path lying
strictly under `base` (the only case arising for walked files): strip
`base` and the separator following it. -/
def relpathUnder (base path : String) : String :=
  String.mk (path.data.drop (base.data.length + 1))

/-- `rel_path.count(os.sep)` on POSIX (source line 189). -/
def countSep (s : String) : Nat :=
  s.data.countP (fun c => c == '/')

/-- Model of `os.path.basename` on a POSIX path. -/
def basenameOf (path : String) : String :=
  String.mk ((path.data.reverse.takeWhile (fun c => c ≠ '/')).reverse)

/-- Model of `os.path.splitext(name)[0]`: strip the last
`.`-extension, never counting the leading dots of the name. -/
def stemOf (name : String) : String :=
  let n := name.data
  let lead := n.takeWhile (fun c => c = '.')
  let rest := n.dropWhile (fun c => c = '.')
  let revRest := rest.reverse
  let after := revRest.takeWhile (fun c => c ≠ '.')
  if after.length = revRest.length then name
  else String.mk (lead ++ (revRest.drop (after.length + 1)).reverse)

/-- Worker for `pyTitle`: the flag records whether the previous
character was alphabetic. -/
def pyTitleAux : Bool → List Char → List Char
  | _, [] => []
  | prevAlpha, c :: cs =>
    let c' := if c.isAlpha then (if prevAlpha then c.toLower else c.toUpper)
      else c
    c' :: pyTitleAux c.isAlpha cs

/-- Model of Python `str.title()` (ASCII): uppercase each letter that
follows a non-letter, lowercase the rest. -/
def pyTitle (s : String) : String :=
  String.mk (pyTitleAux false s.data)

/-- Python `'&nbsp;' * 5 * depth` (source line 193). -/
def strRepeat (s : String) (n : Nat) : String :=
  String.mk (List.flatten (List.replicate n s.data))

/-- The mutable per-run state of `process_files`: the accumulated TOC
markup and the numbering counter. -/
structure RunState where
  toc : String
  numbering : List Nat
deriving Repr

/-- The text transformations applied to a document before frontmatter
splitting (source lines 177-180): the optional image-path rewrite, then
the code-block rewrite.  No other transformation runs before
`parse_frontmatter`; in particular `preprocess_mdx_content` is never
invoked. -/
def pipeline_before_split (change_img_url : Bool)
    (base_path path_args md_content : String) : String :=
  preprocess_code_blocks
    (if change_img_url then process_image_paths base_path path_args md_content
     else md_content)

/-- The `<div class="page-break"></div>` marker (source line 235). -/
def page_break : String := "<div class=\"page-break\"></div>"

/-- The body of the `for` loop of `process_files` for one file (source
lines 173-232), producing the updated run state and this document's
HTML fragment.  `render` is the external `markdown.markdown` call,
`parseYaml` the external YAML parser (see `safe_load_frontmatter`).
`Except.error ()` models an uncaught Python exception: the
`ValueError` of `parse_frontmatter`, or the `AttributeError`/`TypeError`
of attribute access and iteration on a non-mapping/non-iterable parsed
value. -/
def process_files_step (render : String → String)
    (parseYaml : String → Option YVal) (change_img_url : Bool)
    (base_path path_args repo_dir docs_dir : String)
    (file_path md_content : String) (st : RunState) :
    Except Unit (RunState × String) := do
  match parse_frontmatter
      (pipeline_before_split change_img_url base_path path_args md_content) with
  | .error _ => .error ()
  | .ok (fmOpt, body) =>
    let fmTruthy := match fmOpt with
      | some f => !f.data.isEmpty
      | none => false
    if fmTruthy then
      let f := fmOpt.getD ""
      let (fm1, html_tags) := preprocess_frontmatter f
      match safe_load_frontmatter parseYaml fm1 with
      | none => .ok (st, render body)
      | some data0 =>
        let data := restore_html_tags data0 html_tags
        match data with
        | .map _ =>
          let rel_path := relpathUnder (repo_dir ++ "/" ++ docs_dir) file_path
          let depth0 := countSep rel_path
          let file_basename := basenameOf file_path
          let depth :=
            if "index.".data.isPrefixOf file_basename.data ∧ depth0 > 0 then
              depth0 - 1
            else depth0
          let indent := strRepeat "&nbsp;" (5 * depth)
          let numbering := tocStep st.numbering depth
          let toc_numbering := tocNumberingStr numbering depth
          let toc_title := pyStr ((yget data "title").getD
            (YVal.str (pyTitle (stemOf (basenameOf file_path)))))
          let toc_full_title := toc_numbering ++ " - " ++ toc_title
          let tocLine := indent ++ "<a href='#" ++ toc_full_title ++ "'>" ++
            toc_full_title ++ "</a><br/>"
          let doc_path := pyReplace (pyReplace
            (pyReplace file_path "\\" "/") ".mdx" "")
            (repo_dir ++ "/" ++ docs_dir) ""
          let description := pyStr ((yget data "description").getD
            (YVal.str "No description"))
          let headBlock := "\n                    <h1>" ++ toc_full_title ++
            "</h1>\n                    <div class=\"doc-path\"><p>Documentation path: " ++
            doc_path ++
            "</p></div>\n                    <p><strong>Description:</strong> " ++
            description ++ "</p>\n                    "
          let related := (yget data "related").getD (YVal.map [])
          let relBlock ← (if yTruthy related then
              match related with
              | .map _ => do
                let rTitle := pyStr ((yget related "title").getD
                  (YVal.str "Related"))
                let rDesc := pyStr ((yget related "description").getD
                  (YVal.str "No related description"))
                let links ← yIterate ((yget related "links").getD
                  (YVal.list []))
                let linkItems := String.join (links.map (fun link =>
                  "<li>" ++ pyStr link ++ "</li>"))
                pure ("\n                        <div style=\"margin-left:20px;\">\n                            <p><strong>Related:</strong></p>\n                            <p><strong>Title:</strong> " ++
                  rTitle ++
                  "</p>\n                            <p><strong>Related Description:</strong> " ++
                  rDesc ++
                  "</p>\n                            <p><strong>Links:</strong></p>\n                        <ul>\n                            " ++
                  linkItems ++
                  "\n                        </ul>\n                        </div>\n                        ")
              | _ => Except.error ()
            else pure "")
          .ok ({ toc := st.toc ++ tocLine, numbering := numbering },
            headBlock ++ relBlock ++ "</br>" ++ render body)
        | _ => .error ()
      else .ok (st, render body)

/-- The loop of `process_files` over `(file_path, contents)` pairs
(file reading is external I/O), inserting `page_break` between
consecutive fragments but not after the last (source lines 234-235). -/
def processList (render : String → String)
    (parseYaml : String → Option YVal) (change_img_url : Bool)
    (base_path path_args repo_dir docs_dir : String) :
    List (String × String) → RunState → Except Unit (RunState × String)
  | [], st => .ok (st, "")
  | [fc], st => do
    let (st1, frag) ← process_files_step render parseYaml change_img_url
      base_path path_args repo_dir docs_dir fc.1 fc.2 st
    .ok (st1, frag)
  | fc :: fc2 :: rest, st => do
    let (st1, frag) ← process_files_step render parseYaml change_img_url
      base_path path_args repo_dir docs_dir fc.1 fc.2 st
    let (st2, acc) ← processList render parseYaml change_img_url base_path
      path_args repo_dir docs_dir (fc2 :: rest) st1
    .ok (st2, frag ++ page_break ++ acc)

/-- `process_files` (source lines 157-244): returns the triple
`(html_all_content, toc_html, html_all_pages_content)`.  `styles` is
the text of `styles.css` (external file read). -/
def process_files (render : String → String)
    (parseYaml : String → Option YVal) (change_img_url : Bool)
    (base_path path_args repo_dir docs_dir styles : String)
    (files : List (String × String)) :
    Except Unit (String × String × String) := do
  let html_header := "\n    <html>\n    <head>\n        <style>\n            " ++
    styles ++ "\n        </style>\n    </head>\n    <body>\n    "
  let (st, html_all_pages_content) ← processList render parseYaml
    change_img_url base_path path_args repo_dir docs_dir files
    { toc := "", numbering := [0] }
  let toc_html_core :=
    "<div style=\"padding-bottom: 10px\"><div style=\"padding-bottom: 20px\"><h1>Table of Contents</h1></div>" ++
    st.toc ++ "</div><div style=\"page-break-before: always;\">"
  .ok (html_header ++ toc_html_core ++ html_all_pages_content ++
      "</body></html>",
    html_header ++ toc_html_core ++ "</body></html>",
    html_header ++ html_all_pages_content ++ "</body></html>")

/-- Split a character list on a separator character (used to model
`version.parse` splitting a `d.d.d` token). -/
def splitOnDot : List Char → List (List Char)
  | [] => [[]]
  | c :: cs =>
    match splitOnDot cs with
    | [] => [[]]
    | l :: ls => if c = '.' then [] :: l :: ls else (c :: l) :: ls

/-- Decimal digits to a natural number. -/
def digitsToNat (l : List Char) : Nat :=
  l.foldl (fun a c => a * 10 + (c.toNat - '0'.toNat)) 0

/-- Model of `packaging.version.parse` on the `\d+\.\d+\.\d+` tokens
the scanner produces: the numeric `(major, minor, patch)` triple. -/
def parseVer (t : String) : Nat × Nat × Nat :=
  match splitOnDot t.data with
  | [a, b, c] => (digitsToNat a, digitsToNat b, digitsToNat c)
  | _ => (0, 0, 0)

/-- Numeric (lexicographic on components) comparison of parsed
versions. -/
def verLeb (a b : Nat × Nat × Nat) : Bool :=
  Nat.blt a.1 b.1 || (a.1 == b.1 && (Nat.blt a.2.1 b.2.1 ||
    (a.2.1 == b.2.1 && Nat.ble a.2.2 b.2.2)))

/-- Matcher for one occurrence of `v(\d+\.\d+\.\d+)`: yields the
captured group (without the `v`) and the rest of the text. -/
def verMatch : List Char → Option (List Char × List Char)
  | 'v' :: rest =>
    let d1 := rest.takeWhile Char.isDigit
    let r1 := rest.dropWhile Char.isDigit
    if d1.isEmpty then none
    else
      match r1 with
      | '.' :: r2 =>
        let d2 := r2.takeWhile Char.isDigit
        let r3 := r2.dropWhile Char.isDigit
        if d2.isEmpty then none
        else
          match r3 with
          | '.' :: r4 =>
            let d3 := r4.takeWhile Char.isDigit
            let r5 := r4.dropWhile Char.isDigit
            if d3.isEmpty then none
            else some (d1 ++ '.' :: d2 ++ '.' :: d3, r5)
          | _ => none
      | _ => none
  | _ => none

/-- Fuel-driven worker for `versionTokens`: the scan of
`version_pattern.findall(html_content)`. -/
def versionsAux : Nat → List Char → List String
  | _, [] => []
  | 0, _ => []
  | n + 1, c :: cs =>
    match verMatch (c :: cs) with
    | some (tok, rest) => String.mk tok :: versionsAux n rest
    | none => versionsAux n cs

/-- The token list `version_pattern.findall(html_content)` (source
lines 248-249). -/
def versionTokens (s : String) : List String :=
  versionsAux s.data.length s.data

/-- First-occurrence deduplication, carrying the set of already seen
elements. -/
def dedupAux (seen : List String) : List String → List String
  | [] => []
  | x :: xs =>
    if seen.contains x then dedupAux seen xs
    else x :: dedupAux (x :: seen) xs

/-- `find_latest_version` (source lines 247-251).  `set(versions)` is
modelled as first-occurrence deduplication and Python's stable
descending `sorted(..., reverse=True)` as `insertionSort` on the
descending non-strict comparison; the differences affect only which of
several distinct tokens with equal parsed version is returned. -/
def find_latest_version (html_content : String) : Option String :=
  let versions := versionTokens html_content
  let unique_versions := dedupAux [] versions
  (List.insertionSort
    (fun x y : String => verLeb (parseVer y) (parseVer x) = true)
    unique_versions).head?

/-- The title selection of the `__main__` block (source lines
319-324). -/
def project_title (html_all_content : String) : String :=
  match find_latest_version html_all_content with
  | some v => "Next.js Documentation v" ++ v
  | none => "Next.js Documentation"

/-- The output-file naming of the `__main__` block (source lines
319-325); `today` is the formatted `datetime.now()` value. -/
def output_pdf_name (html_all_content today : String) : String :=
  match find_latest_version html_all_content with
  | some v => "Next.js_Docs_v" ++ v ++ "_" ++ today ++ ".pdf"
  | none => "Next.js_Documentation.pdf"

/-- The placeholder round trip on a single string-valued frontmatter
field, as described by the spec's round-trip property: the field value
`v` is placeholder-substituted by `preprocess_frontmatter`, handed to
the YAML parser — which returns a plain scalar's text verbatim, so the
parsed field value is exactly the substituted text — and then restored
and escaped by the `restoreString` step of `restore_html_tags`. -/
def frontmatterFieldRoundTrip (v : String) : String :=
  let (v', html_tags) := preprocess_frontmatter v
  restoreString html_tags v'

theorem padNumbering_getD (l : List Nat) (d i : Nat) :
    (padNumbering l d).getD i 0 = l.getD i 0 := by
  unfold padNumbering
  rcases lt_or_ge i l.length with h | h
  · exact List.getD_append _ _ _ _ h
  · rw [List.getD_eq_getElem?_getD, List.getElem?_append_right h,
      List.getElem?_replicate, List.getD_eq_default _ _ h]
    split <;> simp

theorem padNumbering_length (l : List Nat) (d : Nat) :
    (padNumbering l d).length = max l.length (d + 1) := by
  simp only [padNumbering, List.length_append, List.length_replicate]
  omega

theorem tocStep_length (l : List Nat) (d : Nat) :
    (tocStep l d).length = max l.length (d + 1) := by
  have h := padNumbering_length l d
  simp only [tocStep, List.length_append, List.length_take, List.length_set,
    List.length_replicate, h]
  omega

theorem tocStep_getD_self (l : List Nat) (d : Nat) :
    (tocStep l d).getD d 0 = l.getD d 0 + 1 := by
  have hp : d < (padNumbering l d).length := by
    rw [padNumbering_length]; omega
  simp only [tocStep, List.getD_eq_getElem?_getD]
  rw [List.getElem?_append,
    if_pos (by rw [List.length_take, List.length_set]; omega),
    List.getElem?_take, if_pos (by omega),
    List.getElem?_set_self (by simpa using hp)]
  have h2 := padNumbering_getD l d d
  rw [List.getD_eq_getElem?_getD, List.getD_eq_getElem?_getD] at h2
  simp [h2]

theorem tocStep_getD_deeper (l : List Nat) (d i : Nat) (h : d < i) :
    (tocStep l d).getD i 0 = 0 := by
  simp only [tocStep, List.getD_eq_getElem?_getD]
  rw [List.getElem?_append_right (by rw [List.length_take]; omega),
    List.getElem?_replicate]
  split <;> simp

theorem tocComponents_length (l : List Nat) (d : Nat) (h : d + 1 ≤ l.length) :
    (tocComponents l d).length = d + 1 := by
  unfold tocComponents
  simp [List.length_take]
  omega

/-- C1: after each visit at depth `d` the TOC counter has slot `d`
incremented by one, every deeper slot reset to `0`, and the rendered
numbering consists of exactly `d + 1` dot-joined components (slots `0`
to `d`); visiting depths `[0, 1, 1, 0, 1]` renders
`1, 1.1, 1.2, 2, 2.1`. -/
theorem toc_counter_invariant :
    (∀ (numbering : List Nat) (depth : Nat),
      (tocStep numbering depth).length = max numbering.length (depth + 1) ∧
      (tocStep numbering depth).getD depth 0 = numbering.getD depth 0 + 1 ∧
      (∀ i, depth < i → (tocStep numbering depth).getD i 0 = 0) ∧
      tocNumberingStr (tocStep numbering depth) depth =
        String.intercalate "." (tocComponents (tocStep numbering depth) depth) ∧
      (tocComponents (tocStep numbering depth) depth).length = depth + 1) ∧
    (tocVisit [0, 1, 1, 0, 1]).2 = ["1", "1.1", "1.2", "2", "2.1"] := by
  refine ⟨fun numbering depth =>
    ⟨tocStep_length _ _, tocStep_getD_self _ _,
      fun i h => tocStep_getD_deeper _ _ _ h, rfl, ?_⟩, by decide⟩
  have h := tocStep_length numbering depth
  exact tocComponents_length _ _ (by omega)

theorem toc_counter_invariant_witness :
    (tocStep [1] 1).getD 2 0 = 0 ∧ (tocStep [1] 1).getD 1 0 = 0 + 1 :=
  ⟨(toc_counter_invariant.1 [1] 1).2.2.1 2 (by decide),
    (toc_counter_invariant.1 [1] 1).2.1⟩

theorem listLtb_common (p : List Char) (a b : Char) (x y : List Char)
    (h : a < b) :
    listLtb (p ++ a :: x) (p ++ b :: y) = true := by
  induction p with
  | nil => simp [listLtb, if_pos h]
  | cons c p ih => simpa [listLtb, lt_irrefl] using ih

/-- C2 as stated is false: a sibling file named `!!!a.md` receives a
sort key that strictly precedes the index document's sort key in the
same directory, and `get_files_sorted` returns it first. -/
theorem index_not_always_first_counterexample :
    pyStrLt (sort_key "docs" "!!!a.md") (sort_key "docs" "index.md") ∧
    "!!!a.md" ≠ "index.md" ∧ "!!!a.md" ≠ "index.mdx" ∧
    get_files_sorted [("docs", "index.md"), ("docs", "!!!a.md")] =
      ["docs/!!!a.md", "docs/index.md"] := by
  refine ⟨by decide, by decide, by decide, by decide⟩

theorem listLtb_irrefl (l : List Char) : listLtb l l = false := by
  induction l with
  | nil => rfl
  | cons a t ih => simp [listLtb, lt_irrefl, ih]

theorem listLtb_trans : ∀ x y z : List Char, listLtb x y = true →
    listLtb y z = true → listLtb x z = true := by
  intro x
  induction x with
  | nil =>
    intro y z hxy hyz
    cases y with
    | nil => simp [listLtb] at hxy
    | cons b bs =>
      cases z with
      | nil => simp [listLtb] at hyz
      | cons c cz => rfl
  | cons a as ih =>
    intro y z hxy hyz
    cases y with
    | nil => simp [listLtb] at hxy
    | cons b bs =>
      cases z with
      | nil => simp [listLtb] at hyz
      | cons c cz =>
        simp only [listLtb] at hxy hyz ⊢
        by_cases hab : a < b
        · by_cases hbc : b < c
          · rw [if_pos (lt_trans hab hbc)]
          · by_cases hcb : c < b
            · rw [if_neg hbc, if_pos hcb] at hyz
              exact absurd hyz (by simp)
            · have heq : b = c := le_antisymm (not_lt.mp hcb) (not_lt.mp hbc)
              subst heq
              rw [if_pos hab]
        · by_cases hba : b < a
          · rw [if_neg hab, if_pos hba] at hxy
            exact absurd hxy (by simp)
          · have heq : a = b := le_antisymm (not_lt.mp hba) (not_lt.mp hab)
            subst heq
            rw [if_neg (lt_irrefl a), if_neg (lt_irrefl a)] at hxy
            by_cases hac : a < c
            · rw [if_pos hac]
            · by_cases hca : c < a
              · rw [if_neg hac, if_pos hca] at hyz
                exact absurd hyz (by simp)
              · have heq2 : a = c :=
                  le_antisymm (not_lt.mp hca) (not_lt.mp hac)
                subst heq2
                rw [if_neg (lt_irrefl a), if_neg (lt_irrefl a)] at hyz ⊢
                exact ih bs cz hxy hyz

theorem listLtb_conn : ∀ x y : List Char, listLtb x y = false →
    listLtb y x = false → x = y := by
  intro x
  induction x with
  | nil =>
    intro y hxy _
    cases y with
    | nil => rfl
    | cons b bs => simp [listLtb] at hxy
  | cons a as ih =>
    intro y hxy hyx
    cases y with
    | nil => simp [listLtb] at hyx
    | cons b bs =>
      simp only [listLtb] at hxy hyx
      by_cases hab : a < b
      · rw [if_pos hab] at hxy
        exact absurd hxy (by simp)
      · by_cases hba : b < a
        · rw [if_pos hba] at hyx
          exact absurd hyx (by simp)
        · have heq : a = b := le_antisymm (not_lt.mp hba) (not_lt.mp hab)
          subst heq
          rw [if_neg (lt_irrefl a), if_neg (lt_irrefl a)] at hxy hyx
          rw [ih bs hxy hyx]

theorem listLtb_asymm (x y : List Char) (h : listLtb x y = true) :
    listLtb y x = false := by
  cases hyx : listLtb y x
  · rfl
  · have := listLtb_trans x y x h hyx
    rw [listLtb_irrefl] at this
    exact Bool.noConfusion this

theorem pyStrLeb_refl (s : String) : pyStrLeb s s = true := by
  simp [pyStrLeb, listLtb_irrefl]

theorem pyStrLeb_total (s t : String) :
    pyStrLeb s t = true ∨ pyStrLeb t s = true := by
  unfold pyStrLeb
  cases h : listLtb t.data s.data
  · left; rfl
  · right
    rw [listLtb_asymm _ _ h]
    rfl

theorem pyStrLeb_trans (s t u : String) (h1 : pyStrLeb s t = true)
    (h2 : pyStrLeb t u = true) : pyStrLeb s u = true := by
  unfold pyStrLeb at h1 h2 ⊢
  rw [Bool.not_eq_true'] at h1 h2 ⊢
  cases hus : listLtb u.data s.data
  · rfl
  · exfalso
    cases hut : listLtb u.data t.data
    · cases htu : listLtb t.data u.data
      · have heq : t.data = u.data := listLtb_conn _ _ htu hut
        rw [← heq] at hus
        rw [hus] at h1
        exact Bool.noConfusion h1
      · have := listLtb_trans _ _ _ htu hus
        rw [this] at h1
        exact Bool.noConfusion h1
    · rw [hut] at h2
      exact Bool.noConfusion h2

theorem sorted_two_sublist {α : Type} (r : α → α → Prop)
    (hrefl : ∀ x, r x x) :
    ∀ (l : List α) (a b : α), List.Sorted r l → a ∈ l → b ∈ l →
      ¬ r b a → List.Sublist [a, b] l := by
  intro l
  induction l with
  | nil => intro a b _ ha _ _; exact absurd ha (List.not_mem_nil a)
  | cons x t ih =>
    intro a b hs ha hb hab
    have hrel := List.rel_of_sorted_cons hs
    have hst : List.Sorted r t := List.Sorted.of_cons hs
    rcases List.mem_cons.mp hb with rfl | hbt
    · rcases List.mem_cons.mp ha with rfl | hat
      · exact absurd (hrefl a) hab
      · exact absurd (hrel a hat) hab
    · rcases List.mem_cons.mp ha with rfl | hat
      · exact List.Sublist.cons₂ a (List.singleton_sublist.mpr hbt)
      · exact List.Sublist.cons x (ih a b hst hat hbt hab)

/-- C2 amended: the index document's sort key strictly precedes the
sort key of every sibling in the same directory whose name begins with
a character greater than `'!'` — in particular every name beginning
with an alphanumeric character, since those all exceed `'!'` — and
accordingly `get_files_sorted` places the index document's path before
such a sibling's path whenever both files are among the walked entries;
the precedence does not hold for siblings whose names begin with `'!'`
or an earlier code point (e.g. `!!!a.md`). -/
theorem index_sort_key_precedes_alnum_siblings (root idx sib : String)
    (c : Char) (cs : List Char)
    (hidx : idx = "index.md" ∨ idx = "index.mdx")
    (h1 : sib ≠ "index.md") (h2 : sib ≠ "index.mdx")
    (hdata : sib.data = c :: cs) (hc : '!' < c) :
    pyStrLt (sort_key root idx) (sort_key root sib) ∧
    ∀ entries : List (String × String), (root, idx) ∈ entries →
      (root, sib) ∈ entries →
      List.Sublist [root ++ "/" ++ idx, root ++ "/" ++ sib]
        (get_files_sorted entries) := by
  have hm : modified_basename idx = "!!!" ++ idx := by
    rcases hidx with rfl | rfl <;> simp [modified_basename]
  have hs : modified_basename sib = sib := by
    simp [modified_basename, h1, h2]
  have e1 : (sort_key root idx).data =
      (root.data ++ ['/']) ++ '!' :: '!' :: '!' :: idx.data := by
    simp [sort_key, hm, String.data_append]
  have e2 : (sort_key root sib).data = (root.data ++ ['/']) ++ c :: cs := by
    simp [sort_key, hs, String.data_append, hdata]
  have hkey : pyStrLt (sort_key root idx) (sort_key root sib) := by
    unfold pyStrLt
    rw [e1, e2]
    exact listLtb_common _ _ _ _ _ hc
  refine ⟨hkey, fun entries hie hse => ?_⟩
  have hidxmem : (root ++ "/" ++ idx, sort_key root idx) ∈
      entries.map (fun rf => (rf.1 ++ "/" ++ rf.2, sort_key rf.1 rf.2)) :=
    List.mem_map.mpr ⟨(root, idx), hie, rfl⟩
  have hsibmem : (root ++ "/" ++ sib, sort_key root sib) ∈
      entries.map (fun rf => (rf.1 ++ "/" ++ rf.2, sort_key rf.1 rf.2)) :=
    List.mem_map.mpr ⟨(root, sib), hse, rfl⟩
  haveI : IsTotal (String × String)
      (fun p q : String × String => pyStrLeb p.2 q.2 = true) :=
    ⟨fun p q => pyStrLeb_total p.2 q.2⟩
  haveI : IsTrans (String × String)
      (fun p q : String × String => pyStrLeb p.2 q.2 = true) :=
    ⟨fun p q u hpq hqu => pyStrLeb_trans _ _ _ hpq hqu⟩
  have hsorted := List.sorted_insertionSort
    (fun p q : String × String => pyStrLeb p.2 q.2 = true)
    (entries.map (fun rf => (rf.1 ++ "/" ++ rf.2, sort_key rf.1 rf.2)))
  have hperm := List.perm_insertionSort
    (fun p q : String × String => pyStrLeb p.2 q.2 = true)
    (entries.map (fun rf => (rf.1 ++ "/" ++ rf.2, sort_key rf.1 rf.2)))
  have hnr : ¬ ((fun p q : String × String => pyStrLeb p.2 q.2 = true)
      (root ++ "/" ++ sib, sort_key root sib)
      (root ++ "/" ++ idx, sort_key root idx)) := by
    intro hcontr
    simp only [pyStrLeb] at hcontr
    rw [Bool.not_eq_true'] at hcontr
    unfold pyStrLt at hkey
    rw [hkey] at hcontr
    exact Bool.noConfusion hcontr
  have hsub := sorted_two_sublist
    (fun p q : String × String => pyStrLeb p.2 q.2 = true)
    (fun p => pyStrLeb_refl p.2) _ _ _ hsorted
    (hperm.mem_iff.mpr hidxmem) (hperm.mem_iff.mpr hsibmem) hnr
  have hmap := List.Sublist.map (fun x : String × String => x.1) hsub
  simpa [get_files_sorted] using hmap

theorem index_sort_key_precedes_alnum_siblings_witness :
    pyStrLt (sort_key "docs" "index.md") (sort_key "docs" "about.md") ∧
    List.Sublist ["docs" ++ "/" ++ "index.md", "docs" ++ "/" ++ "about.md"]
      (get_files_sorted [("docs", "about.md"), ("docs", "index.md")]) :=
  ⟨(index_sort_key_precedes_alnum_siblings "docs" "index.md" "about.md"
      'a' "bout.md".data (Or.inl rfl) (by decide) (by decide) rfl
      (by decide)).1,
    (index_sort_key_precedes_alnum_siblings "docs" "index.md" "about.md"
      'a' "bout.md".data (Or.inl rfl) (by decide) (by decide) rfl
      (by decide)).2 [("docs", "about.md"), ("docs", "index.md")]
      (by decide) (by decide)⟩

set_option maxRecDepth 100000 in
/-- C3: the round trip is exact for the spec's single-tag example, but
at eleven tag occurrences the sequential placeholder restoration
corrupts itself: replacing `HTML_TAG_1` rewrites the prefix of
`HTML_TAG_10`, so the eleventh tag `<k>` never returns and the result
differs from the HTML-escaped original value. -/
theorem frontmatter_round_trip_eleven_tags :
    frontmatterFieldRoundTrip "a <b> tag" = html_escape "a <b> tag" ∧
    html_escape "a <b> tag" = "a &lt;b&gt; tag" ∧
    frontmatterFieldRoundTrip "<a><b><c><d><e><f><g><h><i><j><k>" =
      html_escape "<a><b><c><d><e><f><g><h><i><j><b>0" ∧
    frontmatterFieldRoundTrip "<a><b><c><d><e><f><g><h><i><j><k>" ≠
      html_escape "<a><b><c><d><e><f><g><h><i><j><k>" :=
  ⟨by decide, by decide, by decide, by decide⟩

theorem subAux_id (f : List Char → Option (List Char × List Char)) :
    ∀ (n : Nat) (s : List Char), (∀ t, t <:+ s → f t = none) →
      subAux f n s = s := by
  intro n
  induction n with
  | zero => intro s _; cases s <;> rfl
  | succ n ih =>
    intro s hf
    cases s with
    | nil => rfl
    | cons c cs =>
      have h0 := hf (c :: cs) (List.suffix_refl _)
      simp only [subAux, h0]
      rw [ih cs (fun t ht => hf t (ht.trans (List.suffix_cons c cs)))]

theorem reSub_id (f : List Char → Option (List Char × List Char))
    (s : List Char) (hf : ∀ t, t <:+ s → f t = none) : reSub f s = s :=
  subAux_id f s.length s hf

theorem subAux_fuel (f : List Char → Option (List Char × List Char))
    (hf : ∀ s o r, f s = some (o, r) → r.length < s.length) :
    ∀ (n m : Nat) (s : List Char), s.length ≤ n → s.length ≤ m →
      subAux f n s = subAux f m s := by
  intro n
  induction n with
  | zero =>
    intro m s hn _
    have hs : s = [] := List.eq_nil_of_length_eq_zero (Nat.le_zero.mp hn)
    subst hs
    cases m <;> rfl
  | succ n ih =>
    intro m s hn hm
    cases s with
    | nil => cases m <;> rfl
    | cons c cs =>
      obtain ⟨m', rfl⟩ : ∃ m', m = m' + 1 :=
        ⟨m - 1, by simp at hm; omega⟩
      cases hfc : f (c :: cs) with
      | none =>
        simp only [subAux, hfc]
        rw [ih m' cs (by simp at hn; omega) (by simp at hm; omega)]
      | some pr =>
        obtain ⟨o, r⟩ := pr
        have hr := hf _ _ _ hfc
        simp only [subAux, hfc]
        rw [ih m' r (by simp at hn hr; omega) (by simp at hm hr; omega)]

theorem reSub_match (f : List Char → Option (List Char × List Char))
    (hf : ∀ s o r, f s = some (o, r) → r.length < s.length)
    (s o r : List Char) (h : f s = some (o, r)) :
    reSub f s = o ++ reSub f r := by
  have hlen := hf _ _ _ h
  cases s with
  | nil => simp at hlen
  | cons c cs =>
    unfold reSub
    simp only [List.length_cons, subAux, h]
    rw [subAux_fuel f hf cs.length r.length r (by simp at hlen; omega)
      (le_refl _)]

theorem isPrefixOf_iff {l₁ l₂ : List Char} :
    l₁.isPrefixOf l₂ = true ↔ l₁ <+: l₂ :=
  List.isPrefixOf_iff_prefix

theorem imgMatch_none (b a : List Char) (t : List Char)
    (h1 : ¬ "srcLight=\"".data <+: t) (h2 : ¬ "srcDark=\"".data <+: t) :
    imgMatch b a t = none := by
  have g1 : ¬ ("srcLight=\"".data.isPrefixOf t = true) := fun hc =>
    h1 (isPrefixOf_iff.mp hc)
  have g2 : ¬ ("srcDark=\"".data.isPrefixOf t = true) := fun hc =>
    h2 (isPrefixOf_iff.mp hc)
  simp [imgMatch, g1, g2]

theorem fenceMatch_none (t : List Char) (h : ¬ "filename=\"".data <:+: t) :
    fenceMatch t = none := by
  by_cases h1 : ("```".data.isPrefixOf t = true)
  · have hsuffix : ((t.drop 3).dropWhile isWordChar).dropWhile isPySpace <:+ t :=
      ((List.dropWhile_suffix _).trans (List.dropWhile_suffix _)).trans
        (List.drop_suffix 3 t)
    have h2 : ¬ ("filename=\"".data.isPrefixOf
        (((t.drop 3).dropWhile isWordChar).dropWhile isPySpace) = true) :=
      fun hc => h ((isPrefixOf_iff.mp hc).isInfix.trans
        hsuffix.isInfix)
    simp [fenceMatch, h1, h2]
  · simp [fenceMatch, h1]

/-- C4 amended: no document-wide escaping pass runs before frontmatter
splitting — the text reaching `parse_frontmatter` is produced only by
the optional asset rewrite and the code-fence rewrite, so any document
free of `srcLight="`/`srcDark="`/`filename="` attributes reaches the
split byte-for-byte unchanged, tag-like sequences included.  The
escaping function `preprocess_mdx_content` exists in the source but the
pipeline never invokes it. -/
theorem no_document_wide_escape_before_split (change_img_url : Bool)
    (b a s : String)
    (h1 : ¬ "srcLight=\"".data <:+: s.data)
    (h2 : ¬ "srcDark=\"".data <:+: s.data)
    (h3 : ¬ "filename=\"".data <:+: s.data) :
    pipeline_before_split change_img_url b a s = s := by
  have hfence : ∀ u : String, ¬ "filename=\"".data <:+: u.data →
      preprocess_code_blocks u = u := by
    intro u hu
    unfold preprocess_code_blocks
    rw [reSub_id _ _ (fun t ht =>
      fenceMatch_none t (fun hinf => hu (hinf.trans ht.isInfix)))]
  have himg : process_image_paths b a s = s := by
    unfold process_image_paths
    rw [reSub_id _ _ (fun t ht => imgMatch_none _ _ t
      (fun hp => h1 (hp.isInfix.trans ht.isInfix))
      (fun hp => h2 (hp.isInfix.trans ht.isInfix)))]
  unfold pipeline_before_split
  cases change_img_url with
  | true =>
    rw [if_pos rfl, himg]
    exact hfence s h3
  | false =>
    rw [if_neg (by simp)]
    exact hfence s h3

theorem no_document_wide_escape_before_split_witness :
    pipeline_before_split true "https://h/i?u=" "&w=100" "hello <b> world" =
      "hello <b> world" :=
  no_document_wide_escape_before_split true "https://h/i?u=" "&w=100"
    "hello <b> world" (by decide) (by decide) (by decide)

/-- C4 as stated is false: at `"hello <b> world"` the pipeline applies
no escaping before frontmatter splitting — the tag-like sequence
arrives unescaped — although the never-invoked `preprocess_mdx_content`
would have escaped it. -/
theorem document_wide_escape_counterexample :
    pipeline_before_split true "https://h/i?u=" "&w=100" "hello <b> world" =
      "hello <b> world" ∧
    preprocess_mdx_content "hello <b> world" = "hello &lt;b&gt; world" ∧
    ("hello <b> world" : String) ≠ "hello &lt;b&gt; world" :=
  ⟨by decide, by decide, by decide⟩

theorem splitAtDashes_eq_none (ls : List String) :
    splitAtDashes ls = none ↔ "---" ∉ ls := by
  induction ls with
  | nil => simp [splitAtDashes]
  | cons x xs ih =>
    by_cases hx : x = "---"
    · subst hx
      simp [splitAtDashes]
    · cases h : splitAtDashes xs with
      | none =>
        simp [splitAtDashes, hx, h, ih.mp h, Ne.symm hx]
      | some pr =>
        have hmem : "---" ∈ xs := by
          by_contra hm
          rw [ih.mpr hm] at h
          exact Option.noConfusion h
        simp [splitAtDashes, hx, h, hmem]

theorem splitAtDashes_eq_some (ls : List String) :
    ∀ a b, splitAtDashes ls = some (a, b) →
      ls = a ++ "---" :: b ∧ "---" ∉ a := by
  induction ls with
  | nil => intro a b h; exact Option.noConfusion h
  | cons x xs ih =>
    intro a b h
    by_cases hx : x = "---"
    · subst hx
      simp [splitAtDashes] at h
      obtain ⟨rfl, rfl⟩ := h
      simp
    · simp only [splitAtDashes, if_neg hx] at h
      cases h2 : splitAtDashes xs with
      | none => rw [h2] at h; exact Option.noConfusion h
      | some pr =>
        obtain ⟨p, r⟩ := pr
        rw [h2] at h
        simp only [Option.some.injEq, Prod.mk.injEq] at h
        obtain ⟨ha, rfl⟩ := h
        obtain ⟨hxs, hnp⟩ := ih p r h2
        subst ha
        refine ⟨by simp [hxs], fun hm => ?_⟩
        rcases List.mem_cons.mp hm with h' | h'
        · exact hx h'.symm
        · exact hnp h' 

/-- C5 amended: `parse_frontmatter` returns the whole text as body with
no frontmatter when the first line is not a `---` line; when the first
line is a `---` line and a closing `---` line exists, it returns the
lines strictly between the delimiters as frontmatter and everything
after the closing line as body; but when the first line is a `---` line
and no closing `---` line exists, it raises an uncaught `ValueError`
(modelled as `Except.error ()`) instead of returning. -/
theorem parse_frontmatter_amended (s : String) (l0 : String)
    (rest : List String)
    (hlines : (splitNl s.data).map String.mk = l0 :: rest) :
    (String.mk (pyStrip l0.data) ≠ "---" →
      parse_frontmatter s = .ok (none, s)) ∧
    (String.mk (pyStrip l0.data) = "---" → "---" ∉ rest →
      parse_frontmatter s = .error ()) ∧
    (String.mk (pyStrip l0.data) = "---" → "---" ∈ rest →
      ∃ pre post, rest = pre ++ "---" :: post ∧ "---" ∉ pre ∧
        parse_frontmatter s =
          .ok (some (String.intercalate "\n" pre),
            String.intercalate "\n" post)) := by
  have hred : parse_frontmatter s =
      if String.mk (pyStrip l0.data) = "---" then
        match splitAtDashes rest with
        | some (fmLines, bodyLines) =>
          .ok (some (String.intercalate "\n" fmLines),
            String.intercalate "\n" bodyLines)
        | none => .error ()
      else .ok (none, s) := by
    unfold parse_frontmatter
    rw [hlines]
  refine ⟨fun hne => ?_, fun heq hnotin => ?_, fun heq hmem => ?_⟩
  · rw [hred, if_neg hne]
  · rw [hred, if_pos heq, (splitAtDashes_eq_none rest).mpr hnotin]
  · rw [hred, if_pos heq]
    cases h : splitAtDashes rest with
    | none =>
      rw [splitAtDashes_eq_none rest] at h
      exact absurd hmem h
    | some pr =>
      obtain ⟨a, b⟩ := pr
      obtain ⟨hdecomp, hna⟩ := splitAtDashes_eq_some rest a b h
      exact ⟨a, b, hdecomp, hna, rfl⟩

theorem parse_frontmatter_amended_witness :
    parse_frontmatter "x" = .ok (none, "x") :=
  (parse_frontmatter_amended "x" "x" [] (by decide)).1 (by decide)

/-- C5 as stated is false at `"---\nfoo"`: the first line is a `---`
line with no closing `---` line, and `parse_frontmatter` raises an
uncaught `ValueError` from `lines.index('---', 1)` (modelled
`Except.error ()`) rather than returning the whole text as body. -/
theorem parse_frontmatter_unclosed_counterexample :
    parse_frontmatter "---\nfoo" = .error () ∧
    parse_frontmatter "---\nfoo" ≠ .ok (none, "---\nfoo") := by
  constructor
  · rfl
  · intro h
    rw [show parse_frontmatter "---\nfoo" = Except.error () from rfl] at h
    exact Except.noConfusion h

/-- C6: when a document's frontmatter block is present (truthy) but the
YAML parse of the placeholder-substituted frontmatter fails —
`safe_load_frontmatter` returns an absent result instead of raising —
the per-document step succeeds (the run does not abort), the TOC and
numbering state are unchanged (no TOC entry), and the document's
fragment is exactly the rendered Markdown body (no heading/metadata
block), which the loop appends in walker order. -/
theorem yaml_failure_recovered (render : String → String)
    (parseYaml : String → Option YVal) (change_img_url : Bool)
    (base_path path_args repo_dir docs_dir file_path md_content : String)
    (st : RunState) (fm body : String)
    (hsplit : parse_frontmatter
        (pipeline_before_split change_img_url base_path path_args md_content) =
      .ok (some fm, body))
    (hne : fm.data ≠ [])
    (hyaml : safe_load_frontmatter parseYaml (preprocess_frontmatter fm).1 =
      none) :
    process_files_step render parseYaml change_img_url base_path path_args
      repo_dir docs_dir file_path md_content st = .ok (st, render body) := by
  rcases hpre : preprocess_frontmatter fm with ⟨fm1, tags⟩
  rw [hpre] at hyaml
  simp only at hyaml
  unfold process_files_step
  rw [hsplit]
  simp only [Option.getD_some]
  rw [if_pos (by simp [List.isEmpty_iff, hne]), hpre, hyaml]

theorem yaml_failure_recovered_witness :
    process_files_step (fun s => "R[" ++ s ++ "]") (fun _ => none) false
      "" "" "repo" "docs" "repo/docs/a.md" "---\ntitle: x\n---\nbody"
      { toc := "T", numbering := [2] } =
      .ok ({ toc := "T", numbering := [2] }, "R[body]") :=
  yaml_failure_recovered (fun s => "R[" ++ s ++ "]") (fun _ => none) false
    "" "" "repo" "docs" "repo/docs/a.md" "---\ntitle: x\n---\nbody"
    { toc := "T", numbering := [2] } "title: x" "body" rfl (by decide) rfl

theorem data_mk (l : List Char) : (String.mk l).data = l := rfl

theorem scanToQuoteNoNl_append (p rest : List Char)
    (hp : ∀ c ∈ p, c ≠ '"' ∧ c ≠ '\n') :
    scanToQuoteNoNl (p ++ '"' :: rest) = some (p, rest) := by
  induction p with
  | nil => simp [scanToQuoteNoNl]
  | cons c cs ih =>
    have hc := hp c (List.mem_cons_self c cs)
    simp [scanToQuoteNoNl, hc.1, hc.2,
      ih (fun d hd => hp d (List.mem_cons_of_mem c hd))]

theorem scanToQuoteNoNl_length : ∀ (s p r : List Char),
    scanToQuoteNoNl s = some (p, r) → r.length < s.length := by
  intro s
  induction s with
  | nil => intro p r h; exact Option.noConfusion h
  | cons c cs ih =>
    intro p r h
    by_cases h1 : c = '"'
    · simp [scanToQuoteNoNl, h1] at h
      obtain ⟨-, rfl⟩ := h
      simp
    · by_cases h2 : c = '\n'
      · simp [scanToQuoteNoNl, h1, h2] at h
      · simp only [scanToQuoteNoNl, if_neg h1, if_neg h2] at h
        cases h3 : scanToQuoteNoNl cs with
        | none => rw [h3] at h; exact Option.noConfusion h
        | some pr =>
          obtain ⟨p', r'⟩ := pr
          rw [h3] at h
          simp only [Option.some.injEq, Prod.mk.injEq] at h
          obtain ⟨-, rfl⟩ := h
          have := ih p' r' h3
          simp
          omega

theorem not_srcLight_of_srcDark (x : List Char) :
    ¬ "srcLight=\"".data <+: ("srcDark=\"".data ++ x) := by
  intro h
  have h10 := List.prefix_iff_eq_take.mp h
  have h9 := congrArg (List.take 9) h10
  rw [List.take_take, List.take_left' (by decide)] at h9
  exact absurd h9 (by decide)

theorem imgMatch_srcLight (b a p rest : List Char)
    (hp : ∀ c ∈ p, c ≠ '"' ∧ c ≠ '\n') :
    imgMatch b a ("srcLight=\"".data ++ (p ++ '"' :: rest)) =
      some ("src=\"".data ++ b ++ p ++ a ++ "\"".data, rest) := by
  unfold imgMatch
  rw [if_pos (isPrefixOf_iff.mpr (List.prefix_append _ _)),
    List.drop_left' (by decide), scanToQuoteNoNl_append p rest hp]

theorem imgMatch_srcDark (b a p rest : List Char)
    (hp : ∀ c ∈ p, c ≠ '"' ∧ c ≠ '\n') :
    imgMatch b a ("srcDark=\"".data ++ (p ++ '"' :: rest)) =
      some ("src=\"".data ++ b ++ p ++ a ++ "\"".data, rest) := by
  unfold imgMatch
  rw [if_neg (fun hc =>
      not_srcLight_of_srcDark _ (isPrefixOf_iff.mp hc)),
    if_pos (isPrefixOf_iff.mpr (List.prefix_append _ _)),
    List.drop_left' (by decide), scanToQuoteNoNl_append p rest hp]

theorem imgMatch_shorten (b a : List Char) : ∀ s o r,
    imgMatch b a s = some (o, r) → r.length < s.length := by
  intro s o r h
  unfold imgMatch at h
  split at h
  · cases h3 : scanToQuoteNoNl (s.drop 10) with
    | none => rw [h3] at h; exact Option.noConfusion h
    | some pr =>
      obtain ⟨p', r'⟩ := pr
      rw [h3] at h
      simp only [Option.some.injEq, Prod.mk.injEq] at h
      obtain ⟨-, rfl⟩ := h
      have hlt := scanToQuoteNoNl_length _ _ _ h3
      have hd := List.length_drop 10 s
      have hlen : 10 ≤ s.length := by
        have hpre := isPrefixOf_iff.mp (by assumption)
        simpa using hpre.length_le
      omega
  · split at h
    · cases h3 : scanToQuoteNoNl (s.drop 9) with
      | none => rw [h3] at h; exact Option.noConfusion h
      | some pr =>
        obtain ⟨p', r'⟩ := pr
        rw [h3] at h
        simp only [Option.some.injEq, Prod.mk.injEq] at h
        obtain ⟨-, rfl⟩ := h
        have hlt := scanToQuoteNoNl_length _ _ _ h3
        have hd := List.length_drop 9 s
        have hlen : 9 ≤ s.length := by
          have hpre := isPrefixOf_iff.mp (by assumption)
          simpa using hpre.length_le
        omega
    · exact Option.noConfusion h

/-- C7: the asset rewrite replaces each `srcLight="…"`/`srcDark="…"`
attribute occurrence by `src="<base><path><suffix>"`, leaves text
containing neither attribute — in particular plain `src="…"`
attributes — unchanged, and rewrites the spec's concrete example as
stated. -/
theorem asset_path_rewrite (b a p rest : String)
    (hp : ∀ c ∈ p.data, c ≠ '"' ∧ c ≠ '\n') :
    process_image_paths b a ("srcLight=\"" ++ p ++ "\"" ++ rest) =
      "src=\"" ++ b ++ p ++ a ++ "\"" ++ process_image_paths b a rest ∧
    process_image_paths b a ("srcDark=\"" ++ p ++ "\"" ++ rest) =
      "src=\"" ++ b ++ p ++ a ++ "\"" ++ process_image_paths b a rest ∧
    (∀ s : String, ¬ "srcLight=\"".data <:+: s.data →
      ¬ "srcDark=\"".data <:+: s.data → process_image_paths b a s = s) ∧
    process_image_paths "https://h/i?u=" "&w=100" "srcLight=\"/x.png\"" =
      "src=\"https://h/i?u=/x.png&w=100\"" ∧
    process_image_paths "https://h/i?u=" "&w=100" "src=\"/y.png\"" =
      "src=\"/y.png\"" := by
  refine ⟨?_, ?_, ?_, by decide, by decide⟩
  · apply String.ext
    have hdata : ("srcLight=\"" ++ p ++ "\"" ++ rest).data =
        "srcLight=\"".data ++ (p.data ++ '"' :: rest.data) := by
      simp [String.data_append, List.append_assoc,
        show "\"".data = ['"'] from rfl]
    have step := reSub_match (imgMatch b.data a.data)
      (imgMatch_shorten b.data a.data) _ _ _
      (imgMatch_srcLight b.data a.data p.data rest.data hp)
    simp only [process_image_paths, data_mk]
    rw [hdata, step]
    simp [String.data_append, List.append_assoc,
      show "\"".data = ['"'] from rfl, process_image_paths, data_mk]
  · apply String.ext
    have hdata : ("srcDark=\"" ++ p ++ "\"" ++ rest).data =
        "srcDark=\"".data ++ (p.data ++ '"' :: rest.data) := by
      simp [String.data_append, List.append_assoc,
        show "\"".data = ['"'] from rfl]
    have step := reSub_match (imgMatch b.data a.data)
      (imgMatch_shorten b.data a.data) _ _ _
      (imgMatch_srcDark b.data a.data p.data rest.data hp)
    simp only [process_image_paths, data_mk]
    rw [hdata, step]
    simp [String.data_append, List.append_assoc,
      show "\"".data = ['"'] from rfl, process_image_paths, data_mk]
  · intro s h1 h2
    unfold process_image_paths
    rw [reSub_id _ _ (fun t ht => imgMatch_none _ _ t
      (fun hq => h1 (hq.isInfix.trans ht.isInfix))
      (fun hq => h2 (hq.isInfix.trans ht.isInfix)))]

theorem asset_path_rewrite_witness :
    process_image_paths "https://h/i?u=" "&w=100"
        ("srcLight=\"" ++ "/x.png" ++ "\"" ++ "") =
      "src=\"" ++ "https://h/i?u=" ++ "/x.png" ++ "&w=100" ++ "\"" ++
        process_image_paths "https://h/i?u=" "&w=100" "" :=
  (asset_path_rewrite "https://h/i?u=" "&w=100" "/x.png" "" (by decide)).1

theorem isWordChar_eq_false_of_isPySpace (c : Char) (h : isPySpace c = true) :
    isWordChar c = false := by
  simp only [isPySpace, Bool.or_eq_true, beq_iff_eq] at h
  rcases h with ((((rfl | rfl) | rfl) | rfl) | rfl) | rfl <;> decide

theorem takeWhile_head_fail (pr : Char → Bool) (b : List Char)
    (hb : ∀ c, b.head? = some c → pr c = false) :
    b.takeWhile pr = [] ∧ b.dropWhile pr = b := by
  cases b with
  | nil => simp
  | cons c cs => simp [List.takeWhile_cons, List.dropWhile_cons, hb c rfl]

theorem takeWhile_append_eq (pr : Char → Bool) (a b : List Char)
    (ha : ∀ c ∈ a, pr c = true)
    (hb : ∀ c, b.head? = some c → pr c = false) :
    (a ++ b).takeWhile pr = a ∧ (a ++ b).dropWhile pr = b := by
  induction a with
  | nil => simpa using takeWhile_head_fail pr b hb
  | cons x xs ih =>
    have hx := ha x (List.mem_cons_self x xs)
    have ih' := ih (fun c hc => ha c (List.mem_cons_of_mem x hc))
    simp [List.takeWhile_cons, List.dropWhile_cons, hx, ih'.1, ih'.2]

theorem scanToChar_append (q : Char) (p rest : List Char)
    (hp : ∀ c ∈ p, c ≠ q) :
    scanToChar q (p ++ q :: rest) = some (p, rest) := by
  induction p with
  | nil => simp [scanToChar]
  | cons c cs ih =>
    have hc := hp c (List.mem_cons_self c cs)
    simp [scanToChar, hc,
      ih (fun d hd => hp d (List.mem_cons_of_mem c hd))]

theorem scanToChar_length (q : Char) : ∀ (s p r : List Char),
    scanToChar q s = some (p, r) → r.length < s.length := by
  intro s
  induction s with
  | nil => intro p r h; exact Option.noConfusion h
  | cons c cs ih =>
    intro p r h
    by_cases h1 : c = q
    · simp [scanToChar, h1] at h
      obtain ⟨-, rfl⟩ := h
      simp
    · simp only [scanToChar, if_neg h1] at h
      cases h3 : scanToChar q cs with
      | none => rw [h3] at h; exact Option.noConfusion h
      | some pr =>
        obtain ⟨p', r'⟩ := pr
        rw [h3] at h
        simp only [Option.some.injEq, Prod.mk.injEq] at h
        obtain ⟨-, rfl⟩ := h
        have := ih p' r' h3
        simp
        omega

theorem splitFirst_length (pat : List Char) (hpat : pat ≠ []) :
    ∀ s p r, splitFirst pat s = some (p, r) → r.length < s.length := by
  intro s
  induction s with
  | nil => intro p r h; exact Option.noConfusion h
  | cons c cs ih =>
    intro p r h
    simp only [splitFirst] at h
    split at h
    · simp only [Option.some.injEq, Prod.mk.injEq] at h
      obtain ⟨-, rfl⟩ := h
      have hlen : 1 ≤ pat.length := List.length_pos.mpr hpat
      simp [List.length_drop]
      omega
    · cases h3 : splitFirst pat cs with
      | none => rw [h3] at h; exact Option.noConfusion h
      | some pr =>
        obtain ⟨p', r'⟩ := pr
        rw [h3] at h
        simp only [Option.some.injEq, Prod.mk.injEq] at h
        obtain ⟨-, rfl⟩ := h
        have := ih p' r' h3
        simp
        omega

theorem splitFirst_fence (body rest : List Char)
    (h : ¬ "```".data <:+: (body ++ ['`', '`'])) :
    splitFirst "```".data (body ++ ("```".data ++ rest)) =
      some (body, rest) := by
  have hdq : "```".data = ['`', '`', '`'] := rfl
  rw [hdq] at h ⊢
  induction body with
  | nil =>
    rw [List.nil_append]
    show splitFirst ['`', '`', '`'] ('`' :: '`' :: '`' :: rest) =
      some ([], rest)
    simp [splitFirst, List.isPrefixOf]
  | cons x xs ih =>
    have hnp : ¬ (['`', '`', '`'].isPrefixOf
        (x :: (xs ++ (['`', '`', '`'] ++ rest))) = true) := by
      intro hc
      apply h
      have hpre := isPrefixOf_iff.mp hc
      have hre : x :: (xs ++ (['`', '`', '`'] ++ rest)) =
          ((x :: xs) ++ ['`', '`']) ++ ('`' :: rest) := by
        simp
      rw [hre] at hpre
      have htake := List.prefix_iff_eq_take.mp hpre
      rw [List.take_append_of_le_length
        (by simp only [List.length_cons, List.length_append]; omega)] at htake
      exact (List.prefix_iff_eq_take.mpr htake).isInfix
    have hih : ¬ ['`', '`', '`'] <:+: (xs ++ ['`', '`']) := fun hc =>
      h (List.infix_cons hc)
    show splitFirst ['`', '`', '`'] (x :: (xs ++ (['`', '`', '`'] ++ rest))) =
      some (x :: xs, rest)
    simp only [splitFirst]
    rw [if_neg hnp, ih hih]

theorem lastSplitAfterNl_length : ∀ (w t : List Char),
    lastSplitAfterNl w = some t → t.length < w.length := by
  intro w
  induction w with
  | nil => intro t h; exact Option.noConfusion h
  | cons c cs ih =>
    intro t h
    simp only [lastSplitAfterNl] at h
    cases h2 : lastSplitAfterNl cs with
    | some t' =>
      rw [h2] at h
      simp only [Option.some.injEq] at h
      subst h
      have := ih t' h2
      simp
      omega
    | none =>
      rw [h2] at h
      by_cases hc : c = '\n'
      · rw [if_pos hc] at h
        simp only [Option.some.injEq] at h
        subst h
        simp
      · rw [if_neg hc] at h
        exact Option.noConfusion h

theorem fenceMatch_shorten : ∀ s o r, fenceMatch s = some (o, r) →
    r.length < s.length := by
  intro s o r h
  unfold fenceMatch at h
  by_cases h1 : ("```".data.isPrefixOf s = true)
  case neg => rw [if_neg h1] at h; exact Option.noConfusion h
  rw [if_pos h1] at h
  simp only at h
  by_cases h2 : ((((s.drop 3).dropWhile isWordChar).takeWhile
      isPySpace).isEmpty = true)
  · rw [if_pos h2] at h; exact Option.noConfusion h
  rw [if_neg h2] at h
  by_cases h3 : ("filename=\"".data.isPrefixOf
      (((s.drop 3).dropWhile isWordChar).dropWhile isPySpace) = true)
  case neg => rw [if_neg h3] at h; exact Option.noConfusion h
  rw [if_pos h3] at h
  cases h4 : scanToChar '"'
      ((((s.drop 3).dropWhile isWordChar).dropWhile isPySpace).drop 10) with
  | none => rw [h4] at h; exact Option.noConfusion h
  | some pr =>
  obtain ⟨fn, s5⟩ := pr
  rw [h4] at h
  simp only at h
  by_cases h5 : (fn.isEmpty = true)
  · rw [if_pos h5] at h; exact Option.noConfusion h
  rw [if_neg h5] at h
  have hs5 : s5.length < s.length := by
    have hlen4 := scanToChar_length '"' _ _ _ h4
    have e1 : (s.drop 3).length = s.length - 3 := List.length_drop 3 s
    have e2 := (List.dropWhile_suffix (l := s.drop 3) isWordChar).length_le
    have e3 := (List.dropWhile_suffix
      (l := (s.drop 3).dropWhile isWordChar) isPySpace).length_le
    have e4 := List.length_drop 10
      (((s.drop 3).dropWhile isWordChar).dropWhile isPySpace)
    have h3' : 3 ≤ s.length := by
      simpa using (isPrefixOf_iff.mp h1).length_le
    omega
  have htle := (List.dropWhile_suffix (l := s5) isPySpace).length_le
  have hwt : (s5.takeWhile isPySpace).length +
      (s5.dropWhile isPySpace).length = s5.length := by
    have h9 := congrArg List.length (List.takeWhile_append_dropWhile
      (p := isPySpace) (l := s5))
    rw [List.length_append] at h9
    exact h9
  by_cases h6 : ("switcher\n".data.isPrefixOf (s5.dropWhile isPySpace) = true)
  · rw [if_pos h6] at h
    simp only at h
    cases h7 : splitFirst "```".data ((s5.dropWhile isPySpace).drop 9) with
    | none => rw [h7] at h; exact Option.noConfusion h
    | some pr2 =>
      obtain ⟨code, r'⟩ := pr2
      rw [h7] at h
      simp only [Option.some.injEq, Prod.mk.injEq] at h
      obtain ⟨-, rfl⟩ := h
      have hlt := splitFirst_length "```".data (by decide) _ _ _ h7
      have e5 := List.length_drop 9 (s5.dropWhile isPySpace)
      omega
  · rw [if_neg h6] at h
    cases h8 : lastSplitAfterNl (s5.takeWhile isPySpace) with
    | none => rw [h8] at h; exact Option.noConfusion h
    | some wtail =>
      rw [h8] at h
      simp only at h
      cases h7 : splitFirst "```".data (wtail ++ s5.dropWhile isPySpace) with
      | none => rw [h7] at h; exact Option.noConfusion h
      | some pr2 =>
        obtain ⟨code, r'⟩ := pr2
        rw [h7] at h
        simp only [Option.some.injEq, Prod.mk.injEq] at h
        obtain ⟨-, rfl⟩ := h
        have hlt := splitFirst_length "```".data (by decide) _ _ _ h7
        have hwl := lastSplitAfterNl_length _ _ h8
        have e6 : (wtail ++ s5.dropWhile isPySpace).length =
            wtail.length + (s5.dropWhile isPySpace).length :=
          List.length_append _ _
        omega

theorem fenceMatch_block (lang sp fn body rest : List Char)
    (hlang : ∀ c ∈ lang, isWordChar c = true)
    (hsp1 : sp ≠ []) (hsp2 : ∀ c ∈ sp, isPySpace c = true)
    (hfn1 : fn ≠ []) (hfn2 : ∀ c ∈ fn, c ≠ '"')
    (hbody : ∀ c, (body ++ ("```".data ++ rest)).head? = some c →
      isPySpace c = false)
    (hsw : ¬ ("switcher\n".data.isPrefixOf
      (body ++ ("```".data ++ rest)) = true))
    (hfence : ¬ "```".data <:+: (body ++ ['`', '`'])) :
    fenceMatch ("```".data ++ (lang ++ (sp ++ ("filename=\"".data ++
        (fn ++ '"' :: '\n' :: (body ++ ("```".data ++ rest))))))) =
      some (fenceHeader lang fn ++ "\n```".data ++ lang ++ "\n".data ++
        body ++ "\n```".data, rest) := by
  obtain ⟨s0, sp', rfl⟩ : ∃ s0 sp', sp = s0 :: sp' := by
    cases sp with
    | nil => exact absurd rfl hsp1
    | cons a b => exact ⟨a, b, rfl⟩
  have hfd : "filename=\"".data = 'f' :: "ilename=\"".data := rfl
  have c1 : "```".data.isPrefixOf ("```".data ++ (lang ++ ((s0 :: sp') ++
      ("filename=\"".data ++ (fn ++ '"' :: '\n' ::
        (body ++ ("```".data ++ rest))))))) = true :=
    isPrefixOf_iff.mpr (List.prefix_append _ _)
  have d1 : ("```".data ++ (lang ++ ((s0 :: sp') ++ ("filename=\"".data ++
      (fn ++ '"' :: '\n' :: (body ++ ("```".data ++ rest))))))).drop 3 =
      lang ++ ((s0 :: sp') ++ ("filename=\"".data ++ (fn ++ '"' :: '\n' ::
        (body ++ ("```".data ++ rest))))) :=
    List.drop_left' (by decide)
  have e2 := takeWhile_append_eq isWordChar lang
    ((s0 :: sp') ++ ("filename=\"".data ++ (fn ++ '"' :: '\n' ::
      (body ++ ("```".data ++ rest))))) hlang
    (by
      intro c hc
      rw [List.cons_append] at hc
      simp only [List.head?_cons, Option.some.injEq] at hc
      subst hc
      exact isWordChar_eq_false_of_isPySpace s0
        (hsp2 s0 (List.mem_cons_self _ _)))
  have e3 := takeWhile_append_eq isPySpace (s0 :: sp')
    ("filename=\"".data ++ (fn ++ '"' :: '\n' ::
      (body ++ ("```".data ++ rest)))) hsp2
    (by
      intro c hc
      rw [hfd, List.cons_append] at hc
      simp only [List.head?_cons, Option.some.injEq] at hc
      subst hc
      decide)
  have c2 : "filename=\"".data.isPrefixOf ("filename=\"".data ++
      (fn ++ '"' :: '\n' :: (body ++ ("```".data ++ rest)))) = true :=
    isPrefixOf_iff.mpr (List.prefix_append _ _)
  have d2 : ("filename=\"".data ++ (fn ++ '"' :: '\n' ::
      (body ++ ("```".data ++ rest)))).drop 10 =
      fn ++ '"' :: '\n' :: (body ++ ("```".data ++ rest)) :=
    List.drop_left' (by decide)
  have e8 : scanToChar '"' (fn ++ '"' :: '\n' ::
      (body ++ ("```".data ++ rest))) =
      some (fn, '\n' :: (body ++ ("```".data ++ rest))) :=
    scanToChar_append '"' fn ('\n' :: (body ++ ("```".data ++ rest))) hfn2
  have c5 : fn.isEmpty = false :=
    Bool.eq_false_iff.mpr (fun hc => hfn1 (List.isEmpty_iff.mp hc))
  have e5 := takeWhile_append_eq isPySpace ['\n']
    (body ++ ("```".data ++ rest))
    (by intro c hc; simp at hc; subst hc; decide) hbody
  obtain ⟨e5a, e5b⟩ := e5
  rw [List.singleton_append] at e5a e5b
  have e6 : lastSplitAfterNl ['\n'] = some [] := by decide
  have e7 : splitFirst "```".data (body ++ ("```".data ++ rest)) =
      some (body, rest) := splitFirst_fence body rest hfence
  unfold fenceMatch
  simp only [c1, if_true, d1, e2.1, e2.2, e3.1, e3.2, List.isEmpty_cons,
    Bool.false_eq_true, if_false, c2, d2, e8, c5, e5a, e5b, hsw, e6,
    List.nil_append, e7]

/-- C8: a fenced block opened with a word-character language tag and a
`filename="…"` attribute is replaced by a header line containing the
filename and the language in parentheses, followed by a fence re-tagged
with only the language wrapping the original code content
byte-for-byte; text without a `filename="` attribute — in particular
every fenced block lacking that attribute — is left untouched; the
spec's concrete example rewrites as stated. -/
theorem code_fence_rewrite (lang sp fn body rest : String)
    (hlang1 : lang.data ≠ [])
    (hlang : ∀ c ∈ lang.data, isWordChar c = true)
    (hsp1 : sp.data ≠ []) (hsp2 : ∀ c ∈ sp.data, isPySpace c = true)
    (hfn1 : fn.data ≠ []) (hfn2 : ∀ c ∈ fn.data, c ≠ '"')
    (hbody : isPySpace
      ((body.data ++ ("```".data ++ rest.data)).headD 'x') = false)
    (hsw : ¬ ("switcher\n".data.isPrefixOf
      (body.data ++ ("```".data ++ rest.data)) = true))
    (hfence : ¬ "```".data <:+: (body.data ++ ['`', '`'])) :
    preprocess_code_blocks ("```" ++ lang ++ sp ++ "filename=\"" ++ fn ++
        "\"\n" ++ body ++ "```" ++ rest) =
      "<div class=\"code-header\"><i>" ++ fn ++ " (" ++ lang ++
        ")</i></div>" ++ "\n```" ++ lang ++ "\n" ++ body ++ "\n```" ++
        preprocess_code_blocks rest ∧
    (∀ s : String, ¬ "filename=\"".data <:+: s.data →
      preprocess_code_blocks s = s) ∧
    preprocess_code_blocks "```js filename=\"a.js\"\ncode\n```" =
      "<div class=\"code-header\"><i>a.js (js)</i></div>\n```js\ncode\n\n```" := by
  refine ⟨?_, ?_, by decide⟩
  · have hbody' : ∀ c, (body.data ++ ("```".data ++ rest.data)).head? =
        some c → isPySpace c = false := by
      intro c hc
      rw [List.headD_eq_head?_getD, hc] at hbody
      exact hbody
    apply String.ext
    have hdata : ("```" ++ lang ++ sp ++ "filename=\"" ++ fn ++ "\"\n" ++
        body ++ "```" ++ rest).data =
        "```".data ++ (lang.data ++ (sp.data ++ ("filename=\"".data ++
          (fn.data ++ '"' :: '\n' ::
            (body.data ++ ("```".data ++ rest.data)))))) := by
      simp [String.data_append, List.append_assoc,
        show ("\"\n" : String).data = ['"', '\n'] from rfl]
    have step := reSub_match fenceMatch fenceMatch_shorten _ _ _
      (fenceMatch_block lang.data sp.data fn.data body.data rest.data
        hlang hsp1 hsp2 hfn1 hfn2 hbody' hsw hfence)
    have hhead : lang.data.isEmpty = false :=
      Bool.eq_false_iff.mpr (fun hc => hlang1 (List.isEmpty_iff.mp hc))
    simp only [preprocess_code_blocks, data_mk]
    rw [hdata, step]
    simp [String.data_append, List.append_assoc, data_mk,
      preprocess_code_blocks, fenceHeader, hhead,
      show ("\n```" : String).data = ['\n', '`', '`', '`'] from rfl,
      show ("\n" : String).data = ['\n'] from rfl,
      show ("```" : String).data = ['`', '`', '`'] from rfl]
  · intro s h
    unfold preprocess_code_blocks
    rw [reSub_id _ _ (fun t ht =>
      fenceMatch_none t (fun hinf => h (hinf.trans ht.isInfix)))]

theorem code_fence_rewrite_witness :
    preprocess_code_blocks ("```" ++ "js" ++ " " ++ "filename=\"" ++
        "a.js" ++ "\"\n" ++ "code\n" ++ "```" ++ "") =
      "<div class=\"code-header\"><i>" ++ "a.js" ++ " (" ++ "js" ++
        ")</i></div>" ++ "\n```" ++ "js" ++ "\n" ++ "code\n" ++ "\n```" ++
        preprocess_code_blocks "" :=
  (code_fence_rewrite "js" " " "a.js" "code\n" "" (by decide) (by decide)
    (by decide) (by decide) (by decide) (by decide) (by decide)
    (by decide) (by decide)).1

theorem verLeb_total (a b : Nat × Nat × Nat) :
    verLeb a b = true ∨ verLeb b a = true := by
  simp only [verLeb, Bool.or_eq_true, Bool.and_eq_true, Nat.blt_eq,
    Nat.ble_eq, beq_iff_eq]
  omega

theorem verLeb_trans (a b c : Nat × Nat × Nat) (h1 : verLeb a b = true)
    (h2 : verLeb b c = true) : verLeb a c = true := by
  simp only [verLeb, Bool.or_eq_true, Bool.and_eq_true, Nat.blt_eq,
    Nat.ble_eq, beq_iff_eq] at h1 h2 ⊢
  omega

theorem verLeb_refl (a : Nat × Nat × Nat) : verLeb a a = true := by
  simp [verLeb]

theorem mem_dedupAux (x : String) : ∀ (l seen : List String),
    x ∈ dedupAux seen l ↔ (x ∈ l ∧ x ∉ seen) := by
  intro l
  induction l with
  | nil => intro seen; simp [dedupAux]
  | cons y ys ih =>
    intro seen
    by_cases hy : (seen.contains y = true)
    · have hmem : y ∈ seen := List.elem_iff.mp hy
      rw [show dedupAux seen (y :: ys) = dedupAux seen ys from by
        simp only [dedupAux, if_pos hy], ih seen]
      constructor
      · rintro ⟨h1, h2⟩
        exact ⟨List.mem_cons_of_mem y h1, h2⟩
      · rintro ⟨h1, h2⟩
        rcases List.mem_cons.mp h1 with rfl | h1
        · exact absurd hmem h2
        · exact ⟨h1, h2⟩
    · have hnmem : y ∉ seen := fun hc => hy (List.elem_iff.mpr hc)
      rw [show dedupAux seen (y :: ys) = y :: dedupAux (y :: seen) ys from by
        simp only [dedupAux, if_neg hy]]
      constructor
      · intro h1
        rcases List.mem_cons.mp h1 with rfl | h1
        · exact ⟨List.mem_cons_self _ _, hnmem⟩
        · obtain ⟨hys, hn⟩ := (ih (y :: seen)).mp h1
          refine ⟨List.mem_cons_of_mem y hys, fun hc => hn ?_⟩
          exact List.mem_cons_of_mem y hc
      · rintro ⟨h1, h2⟩
        rcases List.mem_cons.mp h1 with rfl | h1
        · exact List.mem_cons_self _ _
        · by_cases hxy : x = y
          · subst hxy; exact List.mem_cons_self _ _
          · refine List.mem_cons_of_mem y ((ih (y :: seen)).mpr ⟨h1, ?_⟩)
            intro hc
            rcases List.mem_cons.mp hc with h' | h'
            · exact hxy h'
            · exact h2 h'

theorem dedupAux_nil_iff (l : List String) :
    dedupAux [] l = [] ↔ l = [] := by
  cases l with
  | nil => simp [dedupAux]
  | cons y ys =>
    have : ([] : List String).contains y = false := rfl
    simp [dedupAux, this]

/-- C9: `find_latest_version` returns an absent result exactly when no
`v<major>.<minor>.<patch>` token occurs; otherwise it returns one of
the tokens, maximal under numeric per-component (semantic-version)
comparison of the parsed triples — in particular `v1.10.0` beats both
`v1.2.0` and `v1.9.9`, which lexicographic string order would not give
— and when absent the fixed fallback title and filename are used. -/
theorem version_selection :
    (∀ s : String, find_latest_version s = none ↔ versionTokens s = []) ∧
    (∀ s v, find_latest_version s = some v → v ∈ versionTokens s ∧
      ∀ w ∈ versionTokens s, verLeb (parseVer w) (parseVer v) = true) ∧
    find_latest_version "v1.2.0 v1.10.0 v1.9.9" = some "1.10.0" ∧
    parseVer "1.10.0" = (1, 10, 0) ∧
    (∀ c d : String, find_latest_version c = none →
      project_title c = "Next.js Documentation" ∧
      output_pdf_name c d = "Next.js_Documentation.pdf") := by
  haveI htot : IsTotal String
      (fun x y => verLeb (parseVer y) (parseVer x) = true) :=
    ⟨fun a b => verLeb_total (parseVer b) (parseVer a)⟩
  haveI htrans : IsTrans String
      (fun x y => verLeb (parseVer y) (parseVer x) = true) :=
    ⟨fun a b c h1 h2 => verLeb_trans _ _ _ h2 h1⟩
  refine ⟨fun s => ?_, fun s v hv => ?_, by decide, by decide,
    fun c d h => ?_⟩
  · unfold find_latest_version
    rw [List.head?_eq_none_iff]
    constructor
    · intro h
      have hp := List.perm_insertionSort
        (fun x y => verLeb (parseVer y) (parseVer x) = true)
        (dedupAux [] (versionTokens s))
      rw [h] at hp
      exact (dedupAux_nil_iff _).mp hp.symm.eq_nil
    · intro h
      rw [h]
      rfl
  · unfold find_latest_version at hv
    simp only at hv
    have hsort := List.sorted_insertionSort
      (fun x y => verLeb (parseVer y) (parseVer x) = true)
      (dedupAux [] (versionTokens s))
    have hp := List.perm_insertionSort
      (fun x y => verLeb (parseVer y) (parseVer x) = true)
      (dedupAux [] (versionTokens s))
    cases hs : List.insertionSort
        (fun x y => verLeb (parseVer y) (parseVer x) = true)
        (dedupAux [] (versionTokens s)) with
    | nil => rw [hs] at hv; exact Option.noConfusion hv
    | cons a t =>
      rw [hs] at hv hsort hp
      simp only [List.head?_cons, Option.some.injEq] at hv
      subst hv
      constructor
      · have hval : a ∈ a :: t := List.mem_cons_self _ _
        have := hp.mem_iff.mp hval
        exact ((mem_dedupAux a (versionTokens s) []).mp this).1
      · intro w hw
        have hwd : w ∈ dedupAux [] (versionTokens s) :=
          (mem_dedupAux w (versionTokens s) []).mpr ⟨hw, by simp⟩
        have hws : w ∈ a :: t := hp.mem_iff.mpr hwd
        rcases List.mem_cons.mp hws with rfl | hwt
        · exact verLeb_refl _
        · exact List.rel_of_sorted_cons hsort w hwt
  · unfold project_title output_pdf_name
    rw [h]
    exact ⟨rfl, rfl⟩

theorem version_selection_witness :
    ("1.10.0" ∈ versionTokens "v1.2.0 v1.10.0 v1.9.9" ∧
      ∀ w ∈ versionTokens "v1.2.0 v1.10.0 v1.9.9",
        verLeb (parseVer w) (parseVer "1.10.0") = true) ∧
    project_title "no tokens here" = "Next.js Documentation" ∧
    output_pdf_name "no tokens here" "2026-10-12" =
      "Next.js_Documentation.pdf" :=
  ⟨version_selection.2.1 "v1.2.0 v1.10.0 v1.9.9" "1.10.0" (by decide),
    version_selection.2.2.2.2 "no tokens here" "2026-10-12" (by decide)⟩

/-- C10: `restore_html_tags` rewrites only the top-level string-valued
entries of a parsed mapping: a non-mapping input is returned entirely
unchanged; in a mapping every entry keeps its key, every non-string
value — nested mappings such as `related`, sequences such as
`related.links`, and all strings inside them — is returned untouched
with no placeholder restoration and no escaping, and every top-level
string value becomes its placeholder-restored, HTML-escaped form. -/
theorem restore_html_tags_frame (html_tags : List (String × String)) :
    (∀ v : YVal, (∀ kvs, v ≠ .map kvs) →
      restore_html_tags v html_tags = v) ∧
    (∀ kvs : List (String × YVal), ∃ kvs',
      restore_html_tags (.map kvs) html_tags = .map kvs' ∧
      kvs'.length = kvs.length ∧
      (∀ i, (kvs'.getD i ("", .null)).1 = (kvs.getD i ("", .null)).1) ∧
      (∀ i, (∀ t : String, (kvs.getD i ("", .null)).2 ≠ .str t) →
        kvs'.getD i ("", .null) = kvs.getD i ("", .null)) ∧
      (∀ i t, (kvs.getD i ("", .null)).2 = .str t →
        (kvs'.getD i ("", .null)).2 =
          .str (restoreString html_tags t))) := by
  constructor
  · intro v hv
    cases v with
    | map kvs => exact absurd rfl (hv kvs)
    | null => rfl
    | bool b => rfl
    | int n => rfl
    | str t => rfl
    | list xs => rfl
  · intro kvs
    refine ⟨_, rfl, by simp, ?_, ?_, ?_⟩
    · intro i
      rw [List.getD_eq_getElem?_getD, List.getD_eq_getElem?_getD,
        List.getElem?_map]
      cases h : kvs[i]? with
      | none => rfl
      | some kv =>
        obtain ⟨k, val⟩ := kv
        cases val <;> rfl
    · intro i hns
      rw [List.getD_eq_getElem?_getD] at hns ⊢
      rw [List.getD_eq_getElem?_getD, List.getElem?_map]
      cases h : kvs[i]? with
      | none => rfl
      | some kv =>
        obtain ⟨k, val⟩ := kv
        rw [h] at hns
        cases val with
        | str t => exact absurd rfl (hns t)
        | null => rfl
        | bool b => rfl
        | int n => rfl
        | list xs => rfl
        | map m => rfl
    · intro i t hstr
      rw [List.getD_eq_getElem?_getD] at hstr ⊢
      rw [List.getElem?_map]
      cases h : kvs[i]? with
      | none =>
        rw [h] at hstr
        exact absurd hstr (by simp)
      | some kv =>
        obtain ⟨k, val⟩ := kv
        rw [h] at hstr
        cases val with
        | str u =>
          simp only [Option.getD_some] at hstr
          cases hstr
          rfl
        | null => exact absurd hstr (by simp)
        | bool b => exact absurd hstr (by simp)
        | int n => exact absurd hstr (by simp)
        | list xs => exact absurd hstr (by simp)
        | map m => exact absurd hstr (by simp)

theorem restore_html_tags_frame_witness :
    restore_html_tags (YVal.list [YVal.str "HTML_TAG_0"])
      [("HTML_TAG_0", "<b>")] = YVal.list [YVal.str "HTML_TAG_0"] :=
  (restore_html_tags_frame [("HTML_TAG_0", "<b>")]).1
    (YVal.list [YVal.str "HTML_TAG_0"]) (fun _ h => YVal.noConfusion h)
